import Mathlib

/-!
Shallow embedding of the spacescout disk-usage scanner
(`src/src-tauri/src/scanner.rs`).

Modelling conventions:
* Rust `u64` values are `Nat`; sums and products that can overflow are taken
  `% 2^64` (`u64add`, and the `size_kb * 1024` product); the `u32`
  `items_processed` counter is taken `% 2^32`.
* `PathBuf` is a list of components (`List String`), with `[]` standing for
  the filesystem root `/`; `PathBuf::starts_with` is component-wise prefix
  testing and `Path::parent` drops the last component.
* `HashMap<PathBuf, u64>` is an association list (`SizeMap`) whose order
  models one possible iteration order; `insert` overwrites in place,
  `entry(..).or_insert(0) += v` is `mapAdd`.
* External effects (the `mdfind`/`du` subprocess output, `fs` metadata
  answers, the cancellation flag as observed at each checkpoint, and the
  wall-clock time of each `Instant::now()` sample) are supplied by an
  environment record; emitted Tauri events are collected in a list.
* `f64` arithmetic in `parse_human_size` is modelled by exact rational
  arithmetic carried as a `Nat` numerator/denominator pair; this agrees with
  the Rust code whenever the parsed value and the product are exactly
  representable in `f64` (true of all decimal inputs with small digit counts
  and power-of-1024 multipliers considered here), and `as u64` truncation of
  a nonnegative value is `Nat` division with saturation at `2^64 - 1`.
-/

namespace Spacescout

/-- Rust `u64` modulus. -/
def U64LIM : Nat := 2 ^ 64

/-- Wrapping `u64` addition (release-mode `+=` on `u64`). -/
def u64add (a b : Nat) : Nat := (a + b) % U64LIM

/-- Wrapping `u64` sum of a list (`iter().sum::<u64>()` / repeated `+=`). -/
def u64sum (l : List Nat) : Nat := l.foldl u64add 0

/-- Component-list model of an absolute `PathBuf`; `[]` is `/`. -/
abbrev FsPath := List String

/-- `a.starts_with(b)` on `PathBuf`: component-wise prefix test
(`pathStartsWith p pre` means `pre` is an initial segment of `p`). -/
def pathStartsWith (p pre : FsPath) : Bool := p.take pre.length == pre

/-- `Path::parent`: drop the final component; `None` at the root. -/
def pathParent (p : FsPath) : Option FsPath :=
  if p.isEmpty then none else some p.dropLast

/-- Split an absolute path string at `/` into components
(`PathBuf::from` + `components()` for the absolute paths the scanner meets). -/
def splitAbsPath (s : String) : FsPath :=
  ((s.data.splitOn '/').filter (fun c => c ≠ [])).map String.mk

/-- Rust `char::is_numeric` restricted to the ASCII digit strings produced by
`stat`/`du` and accepted by the size parser. -/
def isNumericChar (c : Char) : Bool := c.isDigit

def isWsChar (c : Char) : Bool := c.isWhitespace

/-- Rust `str::trim` on a char list: drop whitespace from both ends. -/
def trimChars (cs : List Char) : List Char :=
  ((cs.dropWhile isWsChar).reverse.dropWhile isWsChar).reverse

/-- Numeric value of an ASCII digit run. -/
def digitsToNat (cs : List Char) : Nat :=
  cs.foldl (fun n c => 10 * n + (c.toNat - '0'.toNat)) 0

/-- Rust `u64::from_str`: an optional leading `+`, then digits; overflow is an
error. -/
def parseU64 (cs : List Char) : Option Nat :=
  let ds := if cs.head? = some '+' then cs.drop 1 else cs
  if ds ≠ [] ∧ ds.all isNumericChar then
    let n := digitsToNat ds
    if n < U64LIM then some n else none
  else none

/-- Rust `str::split_whitespace` on a char list: maximal runs of
non-whitespace characters. -/
def splitWsAux : List Char → List Char → List (List Char)
  | acc, [] => if acc = [] then [] else [acc.reverse]
  | acc, c :: cs =>
    if isWsChar c then
      if acc = [] then splitWsAux [] cs else acc.reverse :: splitWsAux [] cs
    else splitWsAux (c :: acc) cs

def splitWsChars (cs : List Char) : List (List Char) := splitWsAux [] cs

/-! ## File cache (`FILE_CACHE`, `add_files_to_cache`,
`get_cached_files_for_directory`) -/

/-- `CachedFile { path, size }`. -/
structure CachedFile where
  path : FsPath
  size : Nat
deriving DecidableEq

/-- Comparator `|a, b| b.size.cmp(&a.size)`: descending by size. -/
def sizeDescC (a b : CachedFile) : Prop := b.size ≤ a.size

instance : DecidableRel sizeDescC :=
  fun a b => inferInstanceAs (Decidable (b.size ≤ a.size))

instance : IsTotal CachedFile sizeDescC := ⟨fun a b => Nat.le_total b.size a.size⟩

instance : IsTrans CachedFile sizeDescC := ⟨fun _ _ _ h1 h2 => Nat.le_trans h2 h1⟩

/-- `add_files_to_cache`: push the batch onto the cache, stable-sort the whole
cache descending by size (`sort_by` is a stable sort, modelled by
`insertionSort`), truncate to the 1000 largest. -/
def add_files_to_cache (cache files : List CachedFile) : List CachedFile :=
  (List.insertionSort sizeDescC (cache ++ files)).take 1000

/-! ## Association-list model of `HashMap<PathBuf, u64>` -/

abbrev SizeMap := List (FsPath × Nat)

def mapContains (m : SizeMap) (k : FsPath) : Bool := m.any (fun e => e.1 == k)

/-- `*map.get(k).unwrap_or(&0)`. -/
def mapGetD (m : SizeMap) (k : FsPath) : Nat :=
  ((m.find? (fun e => e.1 == k)).map Prod.snd).getD 0

/-- `HashMap::insert`: overwrite in place, else append. -/
def mapInsert (m : SizeMap) (k : FsPath) (v : Nat) : SizeMap :=
  if mapContains m k then m.map (fun e => if e.1 = k then (e.1, v) else e)
  else m ++ [(k, v)]

/-- `*map.entry(k).or_insert(0) += v` with wrapping `u64` addition. -/
def mapAdd (m : SizeMap) (k : FsPath) (v : Nat) : SizeMap :=
  if mapContains m k then
    m.map (fun e => if e.1 = k then (e.1, u64add e.2 v) else e)
  else m ++ [(k, v)]

/-- `get_cached_files_for_directory`: filter the cache by
`path.starts_with(target)` and collect into a `HashMap` (later inserts of the
same path overwrite). -/
def get_cached_files_for_directory (cache : List CachedFile) (target : FsPath) :
    SizeMap :=
  cache.foldl
    (fun m cf =>
      if pathStartsWith cf.path target then mapInsert m cf.path cf.size else m)
    []

/-! ## `parse_human_size` -/

/-- Rust `f64::from_str` on the digit-and-dot strings cut out by
`parse_human_size`, as an exact `Nat` numerator/denominator pair (the decimal
value `num / den`); `None` models a parse error. -/
def parseDecimalNum (cs : List Char) : Option (Nat × Nat) :=
  match cs.splitOn '.' with
  | [p] =>
    if p ≠ [] ∧ p.all isNumericChar then some (digitsToNat p, 1) else none
  | [p, q] =>
    if (p ≠ [] ∨ q ≠ []) ∧ p.all isNumericChar ∧ q.all isNumericChar then
      some (digitsToNat p * 10 ^ q.length + digitsToNat q, 10 ^ q.length)
    else none
  | _ => none

/-- `parse_human_size`: early-out on blank or `"0B"`, cut the string at the
first char that is neither numeric nor `.`, parse the number, match the
(trimmed, upper-cased) unit, and truncate `number * multiplier` to `u64`
(`Nat` division by the denominator, saturated at `2^64 - 1`). -/
def parse_human_size (s : String) : Nat :=
  if trimChars s.data = [] ∨ s = "0B" then 0
  else
    let cs := trimChars s.data
    let numEnd := (cs.findIdx? (fun c => !(isNumericChar c) && c != '.')).getD cs.length
    if numEnd = 0 then 0
    else
      let numv := (parseDecimalNum (cs.take numEnd)).getD (0, 1)
      let mult : Nat :=
        match String.mk ((trimChars (cs.drop numEnd)).map Char.toUpper) with
        | "B" | "" => 1
        | "K" | "KB" => 1024
        | "M" | "MB" => 1024 * 1024
        | "G" | "GB" => 1024 * 1024 * 1024
        | "T" | "TB" => 1024 * 1024 * 1024 * 1024
        | "P" | "PB" => 1024 * 1024 * 1024 * 1024 * 1024
        | _ => 1
      min (numv.1 * mult / numv.2) (U64LIM - 1)

/-! ## `FileNode` and the tree builder (`build_tree_from_files`) -/

structure FileNode where
  name : String
  path : FsPath
  size : Nat
  isDir : Bool
  children : Option (List FileNode)

/-- The direct children of a node (`children.unwrap_or_default()`). -/
def childrenList (t : FileNode) : List FileNode := t.children.getD []

/-- Sum of the sizes of a node's direct children. -/
def childSum (t : FileNode) : Nat := ((childrenList t).map FileNode.size).sum

/-- All nodes of a tree reachable in at most `n` child steps; for `n` at least
the tree's height this is every node of the tree. -/
def allNodesFuel : Nat → FileNode → List FileNode
  | 0, t => [t]
  | n + 1, t => t :: (childrenList t).flatMap (allNodesFuel n)

/-- Comparator `|a, b| b.size.cmp(&a.size)` on nodes: descending by size. -/
def nodeSizeDesc (a b : FileNode) : Prop := b.size ≤ a.size

instance : DecidableRel nodeSizeDesc :=
  fun a b => inferInstanceAs (Decidable (b.size ≤ a.size))

instance : IsTotal FileNode nodeSizeDesc := ⟨fun a b => Nat.le_total b.size a.size⟩

instance : IsTrans FileNode nodeSizeDesc := ⟨fun _ _ _ h1 h2 => Nat.le_trans h2 h1⟩

/-- `sort_by(|a, b| a.components().count().cmp(&b.components().count()))`. -/
def lenAsc (a b : FsPath) : Prop := a.length ≤ b.length

instance : DecidableRel lenAsc :=
  fun a b => inferInstanceAs (Decidable (a.length ≤ b.length))

/-- `Vec::<PathBuf>::sort()`: lexicographic component order. -/
def pathLexLeB : FsPath → FsPath → Bool
  | [], _ => true
  | _ :: _, [] => false
  | a :: as', b :: bs' =>
    if a < b then true else if a = b then pathLexLeB as' bs' else false

def pathLexLe (a b : FsPath) : Prop := pathLexLeB a b = true

instance : DecidableRel pathLexLe :=
  fun a b => inferInstanceAs (Decidable (pathLexLeB a b = true))

/-- File node for a map entry (`name` = final component, `is_dir: false`). -/
def fileNodeOfEntry (e : FsPath × Nat) : FileNode :=
  { name := (e.1.getLast?).getD "", path := e.1, size := e.2, isDir := false,
    children := none }

/-- The `dir_contents` group of `d`: file entries whose parent is exactly `d`,
in map iteration order. -/
def filesWithParent (files : SizeMap) (d : FsPath) : List FileNode :=
  (files.filter (fun e => pathParent e.1 == some d)).map fileNodeOfEntry

/-- The non-root keys of `dir_sizes` in `all_dirs` order: exactly the
`dir_contents` groups removed by the first pass over `all_dirs` (the pass that
populates the otherwise-unused `dir_nodes` map, lines 693-718). -/
def removedDirsOf (dirSizes : SizeMap) (rootPath : FsPath) : List FsPath :=
  (List.insertionSort lenAsc (dirSizes.map Prod.fst)).filter
    (fun d => d ≠ rootPath)

/-- `immediate_subdirs`: keys of `dir_sizes` one component below root, sorted
(`Vec::sort`) after the depth-ordered `all_dirs` filter. -/
def immediateSubdirsOf (dirSizes : SizeMap) (rootPath : FsPath) : List FsPath :=
  List.insertionSort pathLexLe
    ((List.insertionSort lenAsc (dirSizes.map Prod.fst)).filter
      (fun p => (p.length == rootPath.length + 1) && pathStartsWith p rootPath))

/-- The node built for one immediate subdirectory (lines 734-756): aggregate
size from `dir_sizes`, and the files of its `dir_contents` group — which the
first `all_dirs` pass already removed whenever the key is in `dir_sizes`, so
the lookup is guarded by membership in the removed key set. -/
def subdirNodeOf (files dirSizes : SizeMap) (rootPath d : FsPath) : FileNode :=
  let dirChildren :=
    if d ∈ removedDirsOf dirSizes rootPath then []
    else filesWithParent files d
  { name := (d.getLast?).getD "", path := d, size := mapGetD dirSizes d,
    isDir := true,
    children := if dirChildren.isEmpty then none else some dirChildren }

/-- The root's children before the final size sort and 100-cap, mirroring
`build_tree_from_files` lines 667-764: one node per immediate subdirectory of
positive aggregate size, then the files whose parent is exactly root (root is
skipped by the removal pass, so its group survives). -/
def rootChildrenRaw (files dirSizes : SizeMap) (rootPath : FsPath) :
    List FileNode :=
  ((immediateSubdirsOf dirSizes rootPath).filterMap (fun d =>
    let sz := mapGetD dirSizes d
    if 0 < sz then some (subdirNodeOf files dirSizes rootPath d) else none)) ++
  (if rootPath ∈ removedDirsOf dirSizes rootPath then []
   else filesWithParent files rootPath)

/-- `build_tree_from_files`: root naming, wrapped total size over all file
entries, one level of subdirectory nodes (built from `rootChildrenRaw`),
descending size sort and cap at 100 children.  The Rust function returns
`Result` but never an `Err`. -/
def build_tree_from_files (homePath : FsPath) (files dirSizes : SizeMap)
    (rootPath : FsPath) : FileNode :=
  let rootName :=
    if rootPath = ([] : FsPath) then "Root"
    else if rootPath = homePath then "Home"
    else (rootPath.getLast?).getD "Root"
  let totalSize := u64sum (files.map Prod.snd)
  let sortedChildren :=
    List.insertionSort nodeSizeDesc (rootChildrenRaw files dirSizes rootPath)
  let finalChildren :=
    if 100 < sortedChildren.length then sortedChildren.take 100
    else sortedChildren
  { name := rootName, path := rootPath, size := totalSize, isDir := true,
    children := if finalChildren.isEmpty then none else some finalChildren }

/-- Sum of the mapped file sizes strictly below directory `d` (the
specification's description of a `DirectorySizeMap` value). -/
def sizeUnder (files : SizeMap) (d : FsPath) : Nat :=
  ((files.filter (fun e => pathStartsWith e.1 d && e.1 != d)).map Prod.snd).sum

/-! ## Scan state, progress events (`ScanState`, `emit`, `should_emit`) -/

/-- An event sent through the Tauri `AppHandle`: a `"scan-progress"` payload
stamped with the `Instant::now()` sample taken by `emit`, or a
`"scan-intermediate"` tree snapshot. -/
inductive ScanEvent where
  | progress (time : Nat) (currentPath : String) (itemsProcessed : Nat)
  | intermediate (tree : FileNode)

/-- The mutable part of `ScanState` (`items_processed`, `last_emit`), plus the
count of `emit` calls so far, which indexes the environment's clock of
`Instant::now()` samples. -/
structure ScanSt where
  itemsProcessed : Nat
  lastEmit : Nat
  emitIdx : Nat

/-- `ScanState::should_emit`: at least 100ms (the `emit_interval`) has elapsed
since `last_emit`, judged at the clock sample `now`. -/
def shouldEmit (st : ScanSt) (now : Nat) : Bool := 100 ≤ now - st.lastEmit

/-- `ScanState::emit`: send a `"scan-progress"` event carrying the current
`items_processed`, and reset `last_emit` to `Instant::now()` (the next sample
of the ambient clock). -/
def emitProgress (clock : Nat → Nat) (st : ScanSt) (events : List ScanEvent)
    (path : String) : ScanSt × List ScanEvent :=
  let now := clock st.emitIdx
  ({ st with lastEmit := now, emitIdx := st.emitIdx + 1 },
    events ++ [ScanEvent.progress now path st.itemsProcessed])

/-! ## Indexed (mdfind) scanner -/

/-- Environment of one `scan_directory_with_mdfind` run: the home directory,
the cache contents at scan start, the (parsed-to-lines) stdout of the shell
pipeline of each pass (`Except.error` models a failure to launch the command),
the cancellation flag as observed at each pass checkpoint, and the
`Instant::now()` clock indexed by emit count. -/
structure MdEnv where
  homePath : FsPath
  cache : List CachedFile
  passResult : Nat → Except String (List String)
  cancelledAt : Nat → Bool
  emitClock : Nat → Nat

/-- `{ allFiles := all_files, dirSizes := directory_sizes, .. }` plus the
threaded scan state and emitted events. -/
structure MdState where
  allFiles : SizeMap
  dirSizes : SizeMap
  scan : ScanSt
  events : List ScanEvent

/-- The four passes `(threshold, threshold_name)` of the mdfind scanner. -/
def sizeThresholds : List (Nat × String) :=
  [(104857600, "100MB"), (52428800, "50MB"), (10485760, "10MB"), (5242880, "5MB")]

/-- The ancestor walk shared by the mdfind scanner and the cache-preview
seeding, with the path length as structural fuel (each step drops the last
component, so `dir.length` bounds the walk): starting at `dir`, add `sz` to
every directory that starts with `root` (which includes `root` itself),
stepping to the parent until the walk leaves the filesystem root. -/
def updateAncestorsGo (root : FsPath) (sz : Nat) : Nat → FsPath → SizeMap → SizeMap
  | 0, dir, m => if pathStartsWith dir root then mapAdd m dir sz else m
  | fuel + 1, dir, m =>
    let m' := if pathStartsWith dir root then mapAdd m dir sz else m
    if dir = [] then m' else updateAncestorsGo root sz fuel dir.dropLast m'

def updateAncestorsFrom (root : FsPath) (sz : Nat) (dir : FsPath)
    (m : SizeMap) : SizeMap :=
  updateAncestorsGo root sz dir.length dir m

/-- Begin the ancestor walk at `file_path.parent()`. -/
def updateDirSizes (root p : FsPath) (sz : Nat) (m : SizeMap) : SizeMap :=
  match pathParent p with
  | none => m
  | some d => updateAncestorsFrom root sz d m

/-- Parse one `stat -f '%z %N'` output line: split at the first space, parse
the size as `u64`, keep paths under the scan root that are not already known
(from an earlier pass), and accumulate ancestor directory sizes. -/
def parseStatLine (root : FsPath) (acc : SizeMap × SizeMap) (line : String) :
    SizeMap × SizeMap :=
  match line.data.findIdx? (fun c => c == ' ') with
  | none => acc
  | some i =>
    match parseU64 (line.data.take i) with
    | none => acc
    | some size =>
      let p := splitAbsPath (String.mk (trimChars (line.data.drop i)))
      if pathStartsWith p root then
        if mapContains acc.1 p then acc
        else (acc.1 ++ [(p, size)], updateDirSizes root p size acc.2)
      else acc

/-- One pass of `scan_directory_with_mdfind` (loop body, lines 543-623):
cancellation checkpoint, pass-header progress emit, run the pipeline, parse
its lines, store the `u32` items counter, pass-summary progress emit, and an
intermediate tree snapshot once more than 10 files are known.  An error
carries the events emitted before the abort. -/
def mdPass (env : MdEnv) (root : FsPath) (pk : Nat × Nat × String)
    (st : MdState) : Except (String × List ScanEvent) MdState :=
  let k := pk.1
  if env.cancelledAt k then .error ("Scan cancelled", st.events)
  else
    let (s1, ev1) := emitProgress env.emitClock st.scan st.events
      ("mdfind pass " ++ toString (k + 1) ++ "/" ++ toString sizeThresholds.length ++
        ": Finding files larger than " ++ pk.2.2)
    match env.passResult k with
    | .error e => .error ("Failed to execute mdfind: " ++ e, ev1)
    | .ok lines =>
      let filesBefore := st.allFiles.length
      let parsed := lines.foldl (parseStatLine root) (st.allFiles, st.dirSizes)
      let af := parsed.1
      let ds := parsed.2
      let s2 := { s1 with itemsProcessed := af.length % 2 ^ 32 }
      let (s3, ev2) := emitProgress env.emitClock s2 ev1
        ("mdfind: Found " ++ toString af.length ++ " large files (" ++
          toString (af.length - filesBefore) ++ " new in this pass " ++
          toString (k + 1) ++ "/" ++ toString sizeThresholds.length ++ ")")
      let ev3 :=
        if 10 < af.length then
          ev2 ++ [ScanEvent.intermediate (build_tree_from_files env.homePath af ds root)]
        else ev2
      .ok { allFiles := af, dirSizes := ds, scan := s3, events := ev3 }

/-- Fold of `mdPass` over the enumerated threshold passes. -/
def mdPasses (env : MdEnv) (root : FsPath) :
    List (Nat × Nat × String) → MdState → Except (String × List ScanEvent) MdState
  | [], st => .ok st
  | p :: ps, st =>
    match mdPass env root p st with
    | .error e => .error e
    | .ok st' => mdPasses env root ps st'

/-- Observable outcome of a scan: the returned `Result`, the events emitted
along the way, and the cache contents after the run. -/
structure ScanOutcome where
  result : Except String FileNode
  events : List ScanEvent
  finalCache : List CachedFile

/-- The cache-seeded preview emitted before pass 1 (lines 510-539): if any
cache entries lie under `root`, build a temporary tree from them (with the
same ancestor-size walk) and emit it as a `"scan-intermediate"` event; the
entries are not merged into `all_files`. -/
def mdPreviewEvents (env : MdEnv) (root : FsPath) : List ScanEvent :=
  let cachedFiles := get_cached_files_for_directory env.cache root
  if cachedFiles.isEmpty then ([] : List ScanEvent)
  else
    let ctd := cachedFiles.foldl (fun m e => updateDirSizes root e.1 e.2 m) []
    [ScanEvent.intermediate (build_tree_from_files env.homePath cachedFiles ctd root)]

/-- The pass loop started on empty maps and the preview events. -/
def mdfindRun (env : MdEnv) (root : FsPath) (st0 : ScanSt) :
    Except (String × List ScanEvent) MdState :=
  mdPasses env root sizeThresholds.enum
    { allFiles := [], dirSizes := [], scan := st0, events := mdPreviewEvents env root }

/-- `scan_directory_with_mdfind`: emit a preview tree built from cache entries
nested under `root` (without seeding `all_files`), run the four passes, emit
the final status, merge the discovered files into the cache, and build the
returned tree from the accumulated maps. -/
def scan_directory_with_mdfind (env : MdEnv) (root : FsPath) (st0 : ScanSt) :
    ScanOutcome :=
  match mdfindRun env root st0 with
  | .error e => { result := .error e.1, events := e.2, finalCache := env.cache }
  | .ok st =>
    let fin := emitProgress env.emitClock st.scan st.events
      ("mdfind complete: " ++ toString st.allFiles.length ++
        " files found. Building directory tree...")
    { result := .ok (build_tree_from_files env.homePath st.allFiles st.dirSizes root),
      events := fin.2,
      finalCache := add_files_to_cache env.cache
        (st.allFiles.map (fun e => { path := e.1, size := e.2 })) }

/-- `scan_directory` (orchestrator) on macOS: build a fresh `ScanState`
(items 0, `last_emit = Instant::now()` = `startTime`), expand a literal `"~"`
argument to the home directory, and delegate to the mdfind scanner
(`scan_directory_smart` immediately forwards on `target_os = "macos"`).
`rootMetadata` models the filesystem's `fs::metadata` answer for the root
path; the live scan path never queries it. -/
def scan_directory (env : MdEnv) (rootMetadata : Option Nat) (pathArg : String)
    (startTime : Nat) : ScanOutcome :=
  let st0 : ScanSt := { itemsProcessed := 0, lastEmit := startTime, emitIdx := 0 }
  let scanPath := if pathArg = "~" then env.homePath else splitAbsPath pathArg
  scan_directory_with_mdfind env scanPath st0

/-! ## Fallback (du) scanner -/

/-- One `fs::read_dir` entry as the secondary strategy observes it: name,
`is_dir` from its metadata, and `metadata.len()`.  Entries whose `DirEntry` or
metadata lookup fails are skipped by the code and are modelled as absent. -/
structure DuEntry where
  name : String
  isDir : Bool
  len : Nat

/-- Environment of one `scan_directory_with_du` run. -/
structure DuEnv where
  homePath : FsPath
  cache : List CachedFile
  duLaunchError : Option String
  duLines : List String
  isDirAt : FsPath → Bool
  readDir : Option (List DuEntry)
  cancelledAt : Nat → Bool
  emitClock : Nat → Nat

/-- Cache pre-seeding of the du scanner (lines 813-826): one child per cached
entry under `path` that has a final component, with `is_dir` resolved by
metadata, accumulating the wrapped total. -/
def duCacheSeed (env : DuEnv) (path : FsPath) : List FileNode × Nat :=
  (get_cached_files_for_directory env.cache path).foldl
    (fun acc e =>
      match e.1.getLast? with
      | some nm =>
        (acc.1 ++ [{ name := nm, path := e.1, size := e.2,
                     isDir := env.isDirAt e.1, children := none }],
          u64add acc.2 e.2)
      | none => acc)
    ([], 0)

/-- The du parse loop (lines 832-876): per line, cancellation check, skip
blank lines, split on whitespace, parse the leading kilobyte figure, rejoin
the remaining tokens with single spaces as the name, push a child with
`size_kb * 1024` bytes and metadata-resolved `is_dir`, and emit progress every
fifth line.  The accumulator is `(children, total_size, scan state, events)`. -/
def duParseLoop (env : DuEnv) (path : FsPath) :
    List String → Nat → List FileNode × Nat × ScanSt × List ScanEvent →
    Except (String × List ScanEvent) (List FileNode × Nat × ScanSt × List ScanEvent)
  | [], _, acc => .ok acc
  | line :: rest, idx, (cs, tot, st, evs) =>
    if env.cancelledAt idx then .error ("Scan cancelled", evs)
    else if (trimChars line.data).isEmpty then
      duParseLoop env path rest (idx + 1) (cs, tot, st, evs)
    else
      let parts := splitWsChars line.data
      if 2 ≤ parts.length then
        match parseU64 (parts.headD []) with
        | some kb =>
          let nm := String.mk (List.intercalate [' '] (parts.drop 1))
          let fp := path ++ [nm]
          let size := kb * 1024 % U64LIM
          let se :=
            if idx % 5 = 0 then
              emitProgress env.emitClock
                { st with itemsProcessed := (st.itemsProcessed + 1) % 2 ^ 32 } evs
                ("du scan: Found " ++ toString (idx + 1) ++ " items")
            else (st, evs)
          duParseLoop env path rest (idx + 1)
            (cs ++ [{ name := nm, path := fp, size := size,
                      isDir := env.isDirAt fp, children := none }],
              u64add tot size, se.1, se.2)
        | none => duParseLoop env path rest (idx + 1) (cs, tot, st, evs)
      else duParseLoop env path rest (idx + 1) (cs, tot, st, evs)

/-- The secondary (direct-listing) strategy of the du scanner (lines
884-917): per entry, skip names beginning with `.`, use a fixed 1MB
placeholder for directories and the true length for files, count every kept
entry, and emit on every fifth index or when `should_emit` allows. -/
def duListLoop (env : DuEnv) (path : FsPath) :
    List DuEntry → Nat → List FileNode × Nat × ScanSt × List ScanEvent →
    List FileNode × Nat × ScanSt × List ScanEvent
  | [], _, acc => acc
  | e :: rest, idx, (cs, tot, st, evs) =>
    if e.name.startsWith "." then duListLoop env path rest (idx + 1) (cs, tot, st, evs)
    else
      let size := if e.isDir then 1024 * 1024 else e.len
      let cs' := cs ++ [{ name := e.name, path := path ++ [e.name], size := size,
                          isDir := e.isDir, children := none }]
      let st' := { st with itemsProcessed := (st.itemsProcessed + 1) % 2 ^ 32 }
      let se :=
        if idx % 5 = 0 || shouldEmit st' (env.emitClock st'.emitIdx) then
          emitProgress env.emitClock st' evs
            ("du fallback: Found " ++ toString cs'.length ++ " items")
        else (st', evs)
      duListLoop env path rest (idx + 1) (cs', u64add tot size, se.1, se.2)

/-- `scan_directory_with_du`, instrumented with a flag recording whether the
secondary strategy branch (`children.is_empty()` after cache seeding and du
parsing) was taken: cache pre-seed, parse the du output, possibly run the
direct listing, then sort descending, drop small non-directories and cap at
100 when more than 50 children remain, and name the root. -/
def scan_directory_with_du_impl (env : DuEnv) (path : FsPath) (st0 : ScanSt) :
    Except (String × List ScanEvent) (FileNode × Bool × List ScanEvent) :=
  match env.duLaunchError with
  | some e => .error ("Failed to execute du: " ++ e, [])
  | none =>
    let seed := duCacheSeed env path
    match duParseLoop env path env.duLines 0 (seed.1, seed.2, st0, []) with
    | .error e => .error e
    | .ok (cs, tot, st, evs) =>
      let ranSecondary := cs.isEmpty
      let afterLs :=
        if cs.isEmpty then
          match env.readDir with
          | some entries => duListLoop env path entries 0 (cs, tot, st, evs)
          | none => (cs, tot, st, evs)
        else (cs, tot, st, evs)
      let children0 := List.insertionSort nodeSizeDesc afterLs.1
      let children1 :=
        if 50 < children0.length then
          (children0.filter (fun c => 1024 * 1024 ≤ c.size || c.isDir)).take 100
        else children0
      let rootName :=
        if path = ([] : FsPath) then "Root"
        else if path = env.homePath then "Home"
        else (path.getLast?).getD "Root"
      .ok ({ name := rootName, path := path, size := afterLs.2.1, isDir := true,
             children := if children1.isEmpty then none else some children1 },
            ranSecondary, afterLs.2.2.2)

/-- The `Result<FileNode, String>` returned by `scan_directory_with_du`. -/
def scan_directory_with_du (env : DuEnv) (path : FsPath) (st0 : ScanSt) :
    Except String FileNode :=
  match scan_directory_with_du_impl env path st0 with
  | .error e => .error e.1
  | .ok r => .ok r.1

/-- Whether the du scanner's run took the secondary direct-listing branch. -/
def duSecondaryRan (env : DuEnv) (path : FsPath) (st0 : ScanSt) :
    Except String Bool :=
  match scan_directory_with_du_impl env path st0 with
  | .error e => .error e.1
  | .ok r => .ok r.2.1

/-- The child a single du output line contributes, if it parses: the pure
per-line projection of the `duParseLoop` body. -/
def duLineChild (env : DuEnv) (path : FsPath) (line : String) : Option FileNode :=
  if (trimChars line.data).isEmpty then none
  else
    let parts := splitWsChars line.data
    if 2 ≤ parts.length then
      match parseU64 (parts.headD []) with
      | some kb =>
        let nm := String.mk (List.intercalate [' '] (parts.drop 1))
        some { name := nm, path := path ++ [nm], size := kb * 1024 % U64LIM,
               isDir := env.isDirAt (path ++ [nm]), children := none }
      | none => none
    else none

/-- The children contributed by parsing the du output alone (no cache seed,
no events): the pure projection of `duParseLoop` on an uncancelled run. -/
def duParsedResults (env : DuEnv) (path : FsPath) : List FileNode :=
  env.duLines.filterMap (duLineChild env path)

/-! ## Observables and concrete environments used by the claim theorems -/

/-- Timestamps of the `"scan-progress"` events of an event list, in emission
order. -/
def progressTimes (evs : List ScanEvent) : List Nat :=
  evs.filterMap (fun e =>
    match e with
    | .progress t _ _ => some t
    | .intermediate _ => none)

/-- Every pair of consecutive timestamps is at least 100ms apart (the claim
"at most one progress event per 100ms interval"). -/
def gapsAtLeast100 : List Nat → Bool
  | [] => true
  | [_] => true
  | a :: b :: rest => (a + 100 ≤ b) && gapsAtLeast100 (b :: rest)

/-- Agreement of two pass-fold outcomes on everything that feeds the returned
tree: same error message, or same file and directory maps. -/
def passOutAgree :
    Except (String × List ScanEvent) MdState →
    Except (String × List ScanEvent) MdState → Prop
  | .error e₁, .error e₂ => e₁.1 = e₂.1
  | .ok s₁, .ok s₂ => s₁.allFiles = s₂.allFiles ∧ s₁.dirSizes = s₂.dirSizes
  | _, _ => False

def exceptIsOk : Except String FileNode → Bool
  | .ok _ => true
  | .error _ => false

/-- A fresh `ScanState` at clock origin. -/
def scanSt0 : ScanSt := { itemsProcessed := 0, lastEmit := 0, emitIdx := 0 }

/-- A descending batch of 1001 distinct-size entries, enough to overflow the
1000-entry cache cap. -/
def cacheBatchW : List CachedFile :=
  (List.range 1001).map (fun i => { path := [], size := 1001 - i })

/-- Concrete inputs for the tree-builder witness. -/
def filesW : SizeMap := [(["r", "a", "f1"], 6), (["r", "g2"], 4)]

def dirsW : SizeMap := [(["r", "a"], 6), (["r"], 10)]

/-- Environment for the cancellation witness: the flag is set from the start,
every pass command would succeed. -/
def mdEnvC3w : MdEnv :=
  { homePath := ["Users", "me"], cache := [],
    passResult := fun _ => .ok [], cancelledAt := fun _ => true,
    emitClock := fun n => n }

/-- Environment for the rate-limit counterexample: passes return instantly
(10ms of wall clock between consecutive `Instant::now()` samples), nothing is
cancelled. -/
def mdEnvC4 : MdEnv :=
  { homePath := ["Users", "me"], cache := [],
    passResult := fun _ => .ok [], cancelledAt := fun _ => false,
    emitClock := fun n => 10 * n }

/-- Environment for the unreadable-root counterexample: the index still
answers with a hit under the root. -/
def mdEnvC6 : MdEnv :=
  { homePath := ["Users", "me"], cache := [],
    passResult := fun k => if k = 0 then .ok ["123 /tmp/a/f.bin"] else .ok [],
    cancelledAt := fun _ => false, emitClock := fun n => n }

/-- Environment for the du secondary-strategy counterexample: the summary tool
yields zero lines while the cache holds an entry under the root. -/
def duEnvC5 : DuEnv :=
  { homePath := ["Users", "me"], cache := [{ path := ["tmp", "big.bin"], size := 5000 }],
    duLaunchError := none, duLines := [], isDirAt := fun _ => false,
    readDir := some [{ name := "x", isDir := false, len := 7 }],
    cancelledAt := fun _ => false, emitClock := fun n => n }

/-- Environment for the du line-parse scenario `"1024\tfoo bar"`; the
metadata answer for every path is the parameter `b`. -/
def duEnvC8 (b : Bool) : DuEnv :=
  { homePath := ["Users", "me"], cache := [], duLaunchError := none,
    duLines := ["1024\tfoo bar"], isDirAt := fun _ => b, readDir := none,
    cancelledAt := fun _ => false, emitClock := fun n => n }

/-- Environment for the du double-count theorem: the same file (root
`/tmp/x`, final component `nameCs`, size `kb * 1024` bytes) appears both in
the cache and as a du summary line `kbCs ++ "\t" ++ nameCs`. -/
def duEnvC10 (kbCs nameCs : List Char) (kb : Nat) (f : FsPath → Bool) : DuEnv :=
  { homePath := ["Users", "me"],
    cache := [{ path := ["tmp", "x", String.mk nameCs], size := kb * 1024 }],
    duLaunchError := none,
    duLines := [String.mk (kbCs ++ '\t' :: nameCs)],
    isDirAt := f, readDir := none,
    cancelledAt := fun _ => false, emitClock := fun n => n }

/-- The duplicated child produced by `duEnvC10`. -/
def duC10node (nameCs : List Char) (kb : Nat) (f : FsPath → Bool) : FileNode :=
  { name := String.mk nameCs, path := ["tmp", "x", String.mk nameCs],
    size := kb * 1024, isDir := f ["tmp", "x", String.mk nameCs],
    children := none }

/-! ## General list lemmas -/

theorem sum_map_add {α : Type} (l : List α) (f g : α → Nat) :
    (l.map (fun x => f x + g x)).sum = (l.map f).sum + (l.map g).sum := by
  induction l with
  | nil => rfl
  | cons a l ih => simp [ih]; omega

theorem sum_filter_map_eq {α : Type} (l : List α) (p : α → Bool) (f : α → Nat) :
    ((l.filter p).map f).sum = (l.map (fun x => if p x then f x else 0)).sum := by
  induction l with
  | nil => rfl
  | cons a l ih =>
    by_cases h : p a
    · simp [List.filter_cons, h, ih]
    · simp [List.filter_cons, h, ih]

theorem sum_take_le (l : List Nat) (n : Nat) : (l.take n).sum ≤ l.sum := by
  conv_rhs => rw [← List.take_append_drop n l]
  rw [List.sum_append]
  exact Nat.le_add_right _ _

theorem u64sum_eq_sum (l : List Nat) (h : l.sum < U64LIM) : u64sum l = l.sum := by
  suffices haux : ∀ (l : List Nat) (a : Nat), a + l.sum < U64LIM →
      l.foldl u64add a = a + l.sum by
    simpa using haux l 0 (by simpa using h)
  intro l
  induction l with
  | nil => intro a _; simp
  | cons b l ih =>
    intro a ha
    rw [List.sum_cons] at ha
    simp only [List.foldl_cons, List.sum_cons]
    have hab : a + b < U64LIM := by omega
    have h1 : u64add a b = a + b := by
      simp [u64add, Nat.mod_eq_of_lt hab]
    rw [h1, ih (a + b) (by omega)]
    omega

/-! ## C1: file-cache invariant -/

theorem add_files_to_cache_bounds (cache files : List CachedFile) :
    (add_files_to_cache cache files).length ≤ 1000 ∧
    List.Sorted sizeDescC (add_files_to_cache cache files) :=
  ⟨List.length_take_le _ _,
    (List.sorted_insertionSort sizeDescC _).sublist (List.take_sublist _ _)⟩

/-- C1: after any sequence of `add_files_to_cache` merges starting from the
empty process-lifetime cache, the cache has at most 1000 entries and is sorted
descending by size; and eviction only drops smallest entries: any entry `y`
of the merged input that does not survive a merge is no larger than any entry
`x` that does. -/
theorem cache_merge_invariant (batches : List (List CachedFile))
    (cache files : List CachedFile) (x y : CachedFile)
    (hx : x ∈ add_files_to_cache cache files)
    (hy : y ∈ cache ++ files)
    (hy' : y ∉ add_files_to_cache cache files) :
    (batches.foldl add_files_to_cache []).length ≤ 1000 ∧
    List.Sorted sizeDescC (batches.foldl add_files_to_cache []) ∧
    y.size ≤ x.size := by
  refine ⟨?_, ?_, ?_⟩
  · suffices haux : ∀ init : List CachedFile, init.length ≤ 1000 →
        (batches.foldl add_files_to_cache init).length ≤ 1000 by
      exact haux [] (by simp)
    induction batches with
    | nil => intro init h; simpa using h
    | cons b bs ih =>
      intro init _
      exact ih (add_files_to_cache init b) (add_files_to_cache_bounds init b).1
  · suffices haux : ∀ init : List CachedFile, List.Sorted sizeDescC init →
        List.Sorted sizeDescC (batches.foldl add_files_to_cache init) by
      exact haux [] List.sorted_nil
    induction batches with
    | nil => intro init h; simpa using h
    | cons b bs ih =>
      intro init _
      exact ih (add_files_to_cache init b) (add_files_to_cache_bounds init b).2
  · have hsort : List.Sorted sizeDescC (List.insertionSort sizeDescC (cache ++ files)) :=
      List.sorted_insertionSort sizeDescC _
    have hys : y ∈ List.insertionSort sizeDescC (cache ++ files) :=
      (List.mem_insertionSort sizeDescC).mpr hy
    have hsplit := List.take_append_drop 1000 (List.insertionSort sizeDescC (cache ++ files))
    have hyd : y ∈ (List.insertionSort sizeDescC (cache ++ files)).drop 1000 := by
      rw [← hsplit] at hys
      rcases List.mem_append.mp hys with h | h
      · exact absurd h hy'
      · exact h
    rw [← hsplit] at hsort
    exact (List.pairwise_append.mp hsort).2.2 x hx y hyd

set_option maxRecDepth 100000 in
theorem cache_merge_invariant_witness :
    (([[{ path := ["a"], size := 5 }]] : List (List CachedFile)).foldl
        add_files_to_cache []).length ≤ 1000 ∧
    List.Sorted sizeDescC
      (([[{ path := ["a"], size := 5 }]] : List (List CachedFile)).foldl
        add_files_to_cache []) ∧
    ({ path := [], size := 1 } : CachedFile).size ≤
      ({ path := [], size := 1001 } : CachedFile).size :=
  cache_merge_invariant [[{ path := ["a"], size := 5 }]] [] cacheBatchW
    { path := [], size := 1001 } { path := [], size := 1 }
    (by decide) (by decide) (by decide)

/-! ## C7: parse_human_size values -/

/-- C7: `parse_human_size` returns `294*1024*1024` on `"294M"`, `0` on `"0B"`
and on the empty string, and `3758096384 = round(3.5 * 1024^3)` on `"3.5G"`. -/
theorem parse_human_size_values :
    parse_human_size "294M" = 294 * 1024 * 1024 ∧
    parse_human_size "0B" = 0 ∧
    parse_human_size "" = 0 ∧
    parse_human_size "3.5G" = 3758096384 :=
  ⟨by decide, by decide, by decide, by decide⟩

/-! ## C3: cancellation aborts the mdfind scan -/

theorem mdPasses_cancel (env : MdEnv) (root : FsPath)
    (ps : List (Nat × Nat × String)) :
    ∀ st : MdState,
      (∃ p ∈ ps, env.cancelledAt p.1 = true) →
      (∀ p ∈ ps, env.cancelledAt p.1 = false →
        ∃ lines, env.passResult p.1 = .ok lines) →
      ∃ evs, mdPasses env root ps st = .error ("Scan cancelled", evs) := by
  induction ps with
  | nil => intro st h _; simp at h
  | cons p ps ih =>
    intro st h hok
    cases hc : env.cancelledAt p.1 with
    | true =>
      exact ⟨st.events, by simp [mdPasses, mdPass, hc]⟩
    | false =>
      obtain ⟨lines, hl⟩ := hok p (List.mem_cons_self p ps) hc
      obtain ⟨q, hq, hqc⟩ := h
      have hq' : q ∈ ps := by
        rcases List.mem_cons.mp hq with rfl | hq'
        · rw [hc] at hqc; cases hqc
        · exact hq'
      cases hres : mdPass env root p st with
      | error e => simp [mdPass, hc, hl] at hres
      | ok st' =>
        obtain ⟨evs, hevs⟩ := ih st' ⟨q, hq', hqc⟩
          (fun r hr => hok r (List.mem_cons_of_mem p hr))
        exact ⟨evs, by simp [mdPasses, hres, hevs]⟩

/-- C3: if the cancellation token is observed set at some pass checkpoint of
an in-progress mdfind scan (and no earlier pass failed to launch its command),
the scan returns `Err("Scan cancelled")` — the `Result` carries only the error
string, no partial tree. -/
theorem mdfind_cancelled_returns_error (env : MdEnv) (root : FsPath)
    (st0 : ScanSt)
    (h : ∃ k, k < 4 ∧ env.cancelledAt k = true)
    (hok : ∀ k, k < 4 → env.cancelledAt k = false →
      ∃ lines, env.passResult k = .ok lines) :
    (scan_directory_with_mdfind env root st0).result = .error "Scan cancelled" := by
  obtain ⟨k, hk4, hkc⟩ := h
  have hmem : ∃ p ∈ sizeThresholds.enum, p.1 = k := by
    interval_cases k <;> decide
  obtain ⟨p, hp, hpk⟩ := hmem
  have hall : ∀ p ∈ sizeThresholds.enum, p.1 < 4 := by decide
  obtain ⟨evs, hevs⟩ := mdPasses_cancel env root sizeThresholds.enum
    { allFiles := [], dirSizes := [], scan := st0, events := mdPreviewEvents env root }
    ⟨p, hp, by rw [hpk]; exact hkc⟩
    (fun q hq => hok q.1 (hall q hq))
  have hrun : mdfindRun env root st0 = .error ("Scan cancelled", evs) := hevs
  simp [scan_directory_with_mdfind, hrun]

theorem mdfind_cancelled_returns_error_witness :
    (scan_directory_with_mdfind mdEnvC3w [] scanSt0).result =
      .error "Scan cancelled" :=
  mdfind_cancelled_returns_error mdEnvC3w [] scanSt0
    ⟨0, by decide, rfl⟩ (fun k _ hk => by cases hk)

/-! ## C9: the mdfind result does not depend on the cache -/

theorem mdPasses_agree (env₁ env₂ : MdEnv) (root : FsPath)
    (hpr : env₁.passResult = env₂.passResult)
    (hca : env₁.cancelledAt = env₂.cancelledAt)
    (ps : List (Nat × Nat × String)) :
    ∀ st₁ st₂ : MdState, st₁.allFiles = st₂.allFiles →
      st₁.dirSizes = st₂.dirSizes →
      passOutAgree (mdPasses env₁ root ps st₁) (mdPasses env₂ root ps st₂) := by
  induction ps with
  | nil =>
    intro st₁ st₂ h1 h2
    exact ⟨h1, h2⟩
  | cons p ps ih =>
    intro st₁ st₂ h1 h2
    cases hc : env₁.cancelledAt p.1 with
    | true =>
      simp [mdPasses, mdPass, hc, ← hca, passOutAgree]
    | false =>
      cases hres : env₁.passResult p.1 with
      | error e =>
        simp [mdPasses, mdPass, hc, hres, ← hpr, ← hca, passOutAgree, emitProgress]
      | ok lines =>
        simp only [mdPasses, mdPass, hc, hres, ← hpr, ← hca, emitProgress]
        apply ih
        · simp [h1, h2]
        · simp [h1, h2]

/-- C9: the tree returned by the mdfind scanner is independent of the File
Cache contents — two runs over the same per-pass outputs that start from
different cache states return equal `Result`s; the cache seeds only the
emitted preview. -/
theorem mdfind_result_cache_independent (env : MdEnv) (c₁ c₂ : List CachedFile)
    (root : FsPath) (st0 : ScanSt) :
    (scan_directory_with_mdfind { env with cache := c₁ } root st0).result =
      (scan_directory_with_mdfind { env with cache := c₂ } root st0).result := by
  have hagree : passOutAgree (mdfindRun { env with cache := c₁ } root st0)
      (mdfindRun { env with cache := c₂ } root st0) :=
    mdPasses_agree { env with cache := c₁ } { env with cache := c₂ } root rfl rfl
      sizeThresholds.enum _ _ rfl rfl
  rw [scan_directory_with_mdfind, scan_directory_with_mdfind]
  cases hr₁ : mdfindRun { env with cache := c₁ } root st0 with
  | error e₁ =>
    cases hr₂ : mdfindRun { env with cache := c₂ } root st0 with
    | error e₂ =>
      rw [hr₁, hr₂] at hagree
      simp only [passOutAgree] at hagree
      simp [hagree]
    | ok s₂ =>
      rw [hr₁, hr₂] at hagree
      exact absurd hagree (by simp [passOutAgree])
  | ok s₁ =>
    cases hr₂ : mdfindRun { env with cache := c₂ } root st0 with
    | error e₂ =>
      rw [hr₁, hr₂] at hagree
      exact absurd hagree (by simp [passOutAgree])
    | ok s₂ =>
      rw [hr₁, hr₂] at hagree
      obtain ⟨hf, hd⟩ := hagree
      simp [hf, hd]

/-! ## C4: progress-event rate limiting -/

/-- C4 counterexample: with a strictly monotone clock that advances 10ms
between consecutive `Instant::now()` samples, an uncancelled mdfind scan emits
consecutive `"scan-progress"` events less than 100ms apart — the pass-boundary
emissions bypass `should_emit`. -/
theorem progress_rate_limit_cex :
    StrictMono mdEnvC4.emitClock ∧
    gapsAtLeast100 (progressTimes (scan_directory mdEnvC4 none "/" 0).events) = false := by
  constructor
  · intro a b hab
    show 10 * a < 10 * b
    omega
  · decide

theorem progressTimes_append (l₁ l₂ : List ScanEvent) :
    progressTimes (l₁ ++ l₂) = progressTimes l₁ ++ progressTimes l₂ :=
  List.filterMap_append _ _ _

theorem mdPreviewEvents_progress (env : MdEnv) (root : FsPath) :
    progressTimes (mdPreviewEvents env root) = [] := by
  rw [mdPreviewEvents]
  split
  · rfl
  · rfl

theorem mdPass_ok_count (env : MdEnv) (root : FsPath) (p : Nat × Nat × String)
    (st st' : MdState) (hc : env.cancelledAt p.1 = false)
    (lines : List String) (hl : env.passResult p.1 = .ok lines)
    (hres : mdPass env root p st = .ok st') :
    (progressTimes st'.events).length = (progressTimes st.events).length + 2 := by
  simp only [mdPass, hc, hl, Bool.false_eq_true, if_false, emitProgress] at hres
  rw [Except.ok.injEq] at hres
  subst hres
  by_cases h10 : 10 <
      (lines.foldl (parseStatLine root) (st.allFiles, st.dirSizes)).1.length <;>
    simp [h10, progressTimes_append, progressTimes]

theorem mdPasses_progress_count (env : MdEnv) (root : FsPath)
    (ps : List (Nat × Nat × String)) :
    ∀ st : MdState,
      (∀ p ∈ ps, env.cancelledAt p.1 = false) →
      (∀ p ∈ ps, ∃ lines, env.passResult p.1 = .ok lines) →
      ∃ st', mdPasses env root ps st = .ok st' ∧
        (progressTimes st'.events).length =
          (progressTimes st.events).length + 2 * ps.length := by
  induction ps with
  | nil => intro st _ _; exact ⟨st, rfl, by simp⟩
  | cons p ps ih =>
    intro st hc hok
    obtain ⟨lines, hl⟩ := hok p (List.mem_cons_self p ps)
    have hcp := hc p (List.mem_cons_self p ps)
    cases hres : mdPass env root p st with
    | error e => simp [mdPass, hcp, hl] at hres
    | ok stm =>
      obtain ⟨st', h1, h2⟩ := ih stm
        (fun q hq => hc q (List.mem_cons_of_mem p hq))
        (fun q hq => hok q (List.mem_cons_of_mem p hq))
      refine ⟨st', by simp [mdPasses, hres, h1], ?_⟩
      rw [h2, mdPass_ok_count env root p st stm hcp lines hl hres]
      simp only [List.length_cons]
      ring

/-- C4 amended: pass-boundary progress emission is unconditional — an
uncancelled four-pass mdfind scan emits exactly nine `"scan-progress"` events
(two per pass plus one final), regardless of how little wall-clock time
separates them; only `should_emit`-guarded emissions respect the 100ms
interval, and none occur on this path. -/
theorem mdfind_progress_event_count (env : MdEnv) (rootMetadata : Option Nat)
    (pathArg : String) (startTime : Nat)
    (hc : ∀ k, k < 4 → env.cancelledAt k = false)
    (hok : ∀ k, k < 4 → ∃ lines, env.passResult k = .ok lines) :
    (progressTimes (scan_directory env rootMetadata pathArg startTime).events).length = 9 := by
  have hall : ∀ p ∈ sizeThresholds.enum, p.1 < 4 := by decide
  obtain ⟨st', h1, h2⟩ := mdPasses_progress_count env
    (if pathArg = "~" then env.homePath else splitAbsPath pathArg)
    sizeThresholds.enum
    { allFiles := [], dirSizes := [], scan := { itemsProcessed := 0, lastEmit := startTime, emitIdx := 0 },
      events := mdPreviewEvents env (if pathArg = "~" then env.homePath else splitAbsPath pathArg) }
    (fun p hp => hc p.1 (hall p hp))
    (fun p hp => hok p.1 (hall p hp))
  have hrun : mdfindRun env (if pathArg = "~" then env.homePath else splitAbsPath pathArg)
      { itemsProcessed := 0, lastEmit := startTime, emitIdx := 0 } = .ok st' := h1
  rw [mdPreviewEvents_progress] at h2
  have h2' : (progressTimes st'.events).length = 8 := by rw [h2]; decide
  simp only [scan_directory, scan_directory_with_mdfind, hrun, emitProgress]
  rw [progressTimes_append, List.length_append, h2']
  simp [progressTimes]

theorem mdfind_progress_event_count_witness :
    (progressTimes (scan_directory mdEnvC4 none "/" 0).events).length = 9 :=
  mdfind_progress_event_count mdEnvC4 none "/" 0
    (fun _ _ => rfl) (fun _ _ => ⟨[], rfl⟩)

/-! ## C6: root metadata is never consulted -/

/-- C6 counterexample: with the root path's metadata unreadable
(`rootMetadata = none`), the scan does not fail before scanning starts — the
mdfind passes run (nine progress events) and the scan returns `Ok`. -/
theorem scan_unreadable_root_cex :
    exceptIsOk (scan_directory mdEnvC6 none "/tmp" 0).result = true ∧
    (progressTimes (scan_directory mdEnvC6 none "/tmp" 0).events).length = 9 := by
  constructor
  · rfl
  · rfl

/-- C6 amended: the live scan path never reads the root path's metadata; the
scan's entire outcome is independent of it, so an unreadable root produces no
`NotFoundError` and does not stop scanning. -/
theorem scan_directory_ignores_root_metadata (env : MdEnv)
    (m₁ m₂ : Option Nat) (pathArg : String) (startTime : Nat) :
    scan_directory env m₁ pathArg startTime =
      scan_directory env m₂ pathArg startTime := rfl

/-! ## C5: when the du secondary strategy runs -/

theorem duParseLoop_uncancelled (env : DuEnv) (path : FsPath)
    (hunc : ∀ i, env.cancelledAt i = false) :
    ∀ (lines : List String) (idx : Nat) (cs : List FileNode) (tot : Nat)
      (st : ScanSt) (evs : List ScanEvent),
      ∃ st' evs',
        duParseLoop env path lines idx (cs, tot, st, evs) =
          .ok (cs ++ lines.filterMap (duLineChild env path),
            (lines.filterMap (duLineChild env path)).foldl
              (fun t c => u64add t c.size) tot,
            st', evs') := by
  intro lines
  induction lines with
  | nil =>
    intro idx cs tot st evs
    exact ⟨st, evs, by simp [duParseLoop]⟩
  | cons line rest ih =>
    intro idx cs tot st evs
    by_cases htrim : (trimChars line.data).isEmpty
    · obtain ⟨st', evs', h⟩ := ih (idx + 1) cs tot st evs
      refine ⟨st', evs', ?_⟩
      simp only [duParseLoop, hunc idx, Bool.false_eq_true, if_false, htrim,
        if_true, List.filterMap_cons, duLineChild]
      exact h
    · by_cases h2 : 2 ≤ (splitWsChars line.data).length
      · cases hkb : parseU64 ((splitWsChars line.data).headD []) with
        | none =>
          obtain ⟨st', evs', h⟩ := ih (idx + 1) cs tot st evs
          refine ⟨st', evs', ?_⟩
          simp only [duParseLoop, hunc idx, Bool.false_eq_true, if_false, htrim,
            h2, if_true, hkb, List.filterMap_cons, duLineChild]
          exact h
        | some kb =>
          simp only [duParseLoop, hunc idx, Bool.false_eq_true, if_false, htrim,
            h2, if_true, hkb, List.filterMap_cons, duLineChild, List.foldl_cons]
          obtain ⟨st', evs', h⟩ := ih (idx + 1) _ _ _ _
          refine ⟨st', evs', h.trans ?_⟩
          rw [List.append_assoc, List.singleton_append]
      · obtain ⟨st', evs', h⟩ := ih (idx + 1) cs tot st evs
        refine ⟨st', evs', ?_⟩
        simp only [duParseLoop, hunc idx, Bool.false_eq_true, if_false, htrim,
          h2, if_true, List.filterMap_cons, duLineChild]
        exact h

/-- C5 amended: on an uncancelled run whose du command launches, the fallback
scanner takes the secondary direct-listing branch exactly when the children
list is empty after both cache pre-seeding and du-output parsing — i.e. when
the summary tool yields zero parsed results AND no cache entries under the
root were seeded. -/
theorem du_secondary_iff (env : DuEnv) (path : FsPath) (st0 : ScanSt)
    (hunc : ∀ i, env.cancelledAt i = false)
    (hlaunch : env.duLaunchError = none) :
    duSecondaryRan env path st0 =
      .ok ((duCacheSeed env path).1 ++ duParsedResults env path).isEmpty := by
  obtain ⟨st', evs', hloop⟩ := duParseLoop_uncancelled env path hunc
    env.duLines 0 (duCacheSeed env path).1 (duCacheSeed env path).2 st0 []
  simp only [duSecondaryRan, scan_directory_with_du_impl, hlaunch, hloop,
    duParsedResults]

theorem du_secondary_iff_witness :
    duSecondaryRan duEnvC5 ["tmp"] scanSt0 =
      .ok ((duCacheSeed duEnvC5 ["tmp"]).1 ++ duParsedResults duEnvC5 ["tmp"]).isEmpty :=
  du_secondary_iff duEnvC5 ["tmp"] scanSt0 (fun _ => rfl) rfl

/-- C5 counterexample: the summary tool yields zero parsed results, yet the
secondary strategy does not run because the cache seeded a child — refuting
"exactly when the size-summary tool yields zero parsed results". -/
theorem du_secondary_cex :
    duParsedResults duEnvC5 ["tmp"] = [] ∧
    duSecondaryRan duEnvC5 ["tmp"] scanSt0 = .ok false := ⟨rfl, rfl⟩

/-! ## C8: parsing a du summary line with a space-containing name -/

/-- C8: the line `"1024\tfoo bar"` parses to a child named `"foo bar"` of size
`1024 * 1024` bytes, its directory flag resolved by the filesystem metadata
answer (`b`) for the joined path. -/
theorem du_parses_space_name_line (b : Bool) :
    scan_directory_with_du (duEnvC8 b) ["tmp", "x"] scanSt0 =
      .ok { name := "x", path := ["tmp", "x"], size := 1024 * 1024, isDir := true,
            children := some [{ name := "foo bar", path := ["tmp", "x", "foo bar"],
                                size := 1024 * 1024, isDir := b, children := none }] } := by
  cases b <;> rfl

/-! ## C10: cache-seeded and parsed du children are not de-duplicated -/

theorem splitWsAux_nonws (tok : List Char) (hws : ∀ c ∈ tok, isWsChar c = false) :
    ∀ acc rest : List Char,
      splitWsAux acc (tok ++ rest) = splitWsAux (tok.reverse ++ acc) rest := by
  induction tok with
  | nil => intro acc rest; simp
  | cons c cs ih =>
    intro acc rest
    have hc := hws c (List.mem_cons_self c cs)
    rw [List.cons_append, splitWsAux, hc]
    simp only [Bool.false_eq_true, if_false]
    rw [ih (fun d hd => hws d (List.mem_cons_of_mem c hd)) (c :: acc) rest]
    simp [List.reverse_cons, List.append_assoc]

theorem splitWs_two_tokens (kbCs nameCs : List Char)
    (hkb : kbCs ≠ []) (hkbws : ∀ c ∈ kbCs, isWsChar c = false)
    (hnm : nameCs ≠ []) (hnmws : ∀ c ∈ nameCs, isWsChar c = false) :
    splitWsChars (kbCs ++ '\t' :: nameCs) = [kbCs, nameCs] := by
  have hname : splitWsAux [] nameCs = [nameCs] := by
    have h := splitWsAux_nonws nameCs hnmws [] []
    simp only [List.append_nil] at h
    rw [h, splitWsAux]
    simp [hnm]
  rw [splitWsChars, splitWsAux_nonws kbCs hkbws [] ('\t' :: nameCs)]
  rw [List.append_nil, splitWsAux]
  have htab : isWsChar '\t' = true := rfl
  rw [htab]
  simp only [if_true]
  have hrev : ¬ kbCs.reverse = [] := by simpa using hkb
  rw [if_neg hrev, List.reverse_reverse, hname]

theorem trimChars_eq_nil_iff (cs : List Char) :
    trimChars cs = [] ↔ ∀ c ∈ cs, isWsChar c = true := by
  rw [trimChars]
  constructor
  · intro h c hc
    rw [List.reverse_eq_nil_iff, List.dropWhile_eq_nil_iff] at h
    have hdrop : ∀ a ∈ cs.dropWhile isWsChar, isWsChar a = true := by
      intro a ha
      exact h a (List.mem_reverse.mpr ha)
    rcases List.mem_append.mp
        ((List.takeWhile_append_dropWhile (p := isWsChar) (l := cs)) ▸ hc) with
      hin | hin
    · exact List.mem_takeWhile_imp hin
    · exact hdrop c hin
  · intro h
    have : cs.dropWhile isWsChar = [] := List.dropWhile_eq_nil_iff.mpr h
    simp [this]

/-- C10: a file (root `/tmp/x`, name `nameCs`, size `kb*1024` bytes) present
both in the File Cache and in the du output produces two separate child
entries with the same path, and its size is counted twice in the root total. -/
theorem du_double_counts_cached_files (kbCs nameCs : List Char) (kb : Nat)
    (f : FsPath → Bool)
    (hkbp : parseU64 kbCs = some kb)
    (hkbws : ∀ c ∈ kbCs, isWsChar c = false)
    (hnm : nameCs ≠ [])
    (hnmws : ∀ c ∈ nameCs, isWsChar c = false)
    (hfit : 2 * (kb * 1024) < U64LIM) :
    scan_directory_with_du (duEnvC10 kbCs nameCs kb f) ["tmp", "x"] scanSt0 =
      .ok { name := "x", path := ["tmp", "x"], size := 2 * (kb * 1024),
            isDir := true,
            children := some [duC10node nameCs kb f, duC10node nameCs kb f] } := by
  have hx : kb * 1024 < U64LIM := by omega
  have hmod : kb * 1024 % U64LIM = kb * 1024 := Nat.mod_eq_of_lt hx
  have hmod2 : kb * 1024 + kb * 1024 < U64LIM := by omega
  have hkbne : kbCs ≠ [] := by
    intro h
    rw [h] at hkbp
    simp [parseU64] at hkbp
  have htrimne : trimChars (kbCs ++ '\t' :: nameCs) ≠ [] := by
    intro h
    obtain ⟨c, hc⟩ := List.exists_mem_of_ne_nil kbCs hkbne
    have hws := (trimChars_eq_nil_iff _).mp h c (List.mem_append_left _ hc)
    rw [hkbws c hc] at hws
    cases hws
  have htrim : (trimChars (kbCs ++ '\t' :: nameCs)).isEmpty = false := by
    cases hcase : trimChars (kbCs ++ '\t' :: nameCs) with
    | nil => exact absurd hcase htrimne
    | cons a l => rfl
  have hsplit := splitWs_two_tokens kbCs nameCs hkbne hkbws hnm hnmws
  have hint : List.intercalate [' '] [nameCs] = nameCs := by
    simp [List.intercalate]
  have hline : duLineChild (duEnvC10 kbCs nameCs kb f) ["tmp", "x"]
      (String.mk (kbCs ++ '\t' :: nameCs)) = some (duC10node nameCs kb f) := by
    simp only [duLineChild, htrim, Bool.false_eq_true, if_false, hsplit]
    norm_num
    simp only [hkbp, hint, hmod, duEnvC10, duC10node]
  have hparsed : List.filterMap
      (duLineChild (duEnvC10 kbCs nameCs kb f) ["tmp", "x"])
      (duEnvC10 kbCs nameCs kb f).duLines = [duC10node nameCs kb f] := by
    show List.filterMap _ [String.mk (kbCs ++ '\t' :: nameCs)] = _
    rw [List.filterMap_cons, hline]
    rfl
  have hseed : duCacheSeed (duEnvC10 kbCs nameCs kb f) ["tmp", "x"] =
      ([duC10node nameCs kb f], kb * 1024) := by
    simp only [duCacheSeed, get_cached_files_for_directory, duEnvC10,
      List.foldl_cons, List.foldl_nil, pathStartsWith]
    norm_num [mapInsert, mapContains, u64add, hmod, duC10node]
  obtain ⟨st', evs', hloop⟩ := duParseLoop_uncancelled (duEnvC10 kbCs nameCs kb f)
    ["tmp", "x"] (fun _ => rfl) (duEnvC10 kbCs nameCs kb f).duLines 0
    (duCacheSeed (duEnvC10 kbCs nameCs kb f) ["tmp", "x"]).1
    (duCacheSeed (duEnvC10 kbCs nameCs kb f) ["tmp", "x"]).2 scanSt0 []
  simp only [scan_directory_with_du, scan_directory_with_du_impl,
    show (duEnvC10 kbCs nameCs kb f).duLaunchError = none from rfl, hloop]
  rw [hparsed, hseed]
  simp only [List.singleton_append, List.isEmpty_cons, Bool.false_eq_true,
    if_false, List.foldl_cons, List.foldl_nil]
  rw [show List.insertionSort nodeSizeDesc
        [duC10node nameCs kb f, duC10node nameCs kb f] =
      [duC10node nameCs kb f, duC10node nameCs kb f] from by
    simp [List.insertionSort, List.orderedInsert, nodeSizeDesc]]
  rw [show u64add (kb * 1024) (duC10node nameCs kb f).size = 2 * (kb * 1024) from by
    simp only [duC10node, u64add]
    rw [← two_mul]
    exact Nat.mod_eq_of_lt hfit]
  norm_num
  rw [show (duEnvC10 kbCs nameCs kb f).homePath = ["Users", "me"] from rfl]
  decide

theorem du_double_counts_cached_files_witness :
    scan_directory_with_du
        (duEnvC10 ['4'] "data.bin".data 4 (fun _ => false)) ["tmp", "x"] scanSt0 =
      .ok { name := "x", path := ["tmp", "x"], size := 2 * (4 * 1024),
            isDir := true,
            children := some [duC10node "data.bin".data 4 (fun _ => false),
                              duC10node "data.bin".data 4 (fun _ => false)] } :=
  du_double_counts_cached_files ['4'] "data.bin".data 4 (fun _ => false)
    (by decide) (by decide) (by decide) (by decide) (by decide)

/-! ## C2: soundness of the tree builder -/

theorem startsWith_iff (p pre : FsPath) :
    pathStartsWith p pre = true ↔ p.take pre.length = pre := by
  simp [pathStartsWith]

theorem length_ge_of_startsWith (p r : FsPath)
    (h : pathStartsWith p r = true) (hne : p ≠ r) : r.length + 1 ≤ p.length := by
  rw [startsWith_iff] at h
  by_contra hlt
  push_neg at hlt
  exact hne (by rw [← h, List.take_of_length_le (by omega)])

theorem dropLast_eq_of_startsWith (p r : FsPath)
    (h : pathStartsWith p r = true) (hlen : p.length = r.length + 1) :
    p.dropLast = r := by
  rw [startsWith_iff] at h
  rw [List.dropLast_eq_take, hlen, Nat.add_sub_cancel, h]

theorem strictUnder_iff (p d : FsPath) :
    (pathStartsWith p d && p != d) = true ↔
      p.take d.length = d ∧ d.length < p.length := by
  rw [Bool.and_eq_true, startsWith_iff, bne_iff_ne]
  constructor
  · rintro ⟨h1, h2⟩
    refine ⟨h1, ?_⟩
    rcases Nat.lt_or_ge d.length p.length with h | h
    · exact h
    · exact absurd (by rw [← h1, List.take_of_length_le h]) h2
  · rintro ⟨h1, h2⟩
    refine ⟨h1, fun he => ?_⟩
    rw [he] at h2
    exact Nat.lt_irrefl _ h2

theorem sum_select (L : List FsPath) (hnd : L.Nodup) (k : Nat)
    (hk : ∀ d ∈ L, d.length = k) (p : FsPath) (v : Nat) :
    (L.map (fun d => if (pathStartsWith p d && p != d) = true then v else 0)).sum =
      if k < p.length ∧ p.take k ∈ L then v else 0 := by
  induction L with
  | nil => simp
  | cons d L ih =>
    have hdk := hk d (List.mem_cons_self d L)
    rw [List.map_cons, List.sum_cons,
      ih (List.nodup_cons.mp hnd).2 (fun e he => hk e (List.mem_cons_of_mem _ he))]
    by_cases hc : p.take k = d ∧ k < p.length
    · obtain ⟨hc1, hc2⟩ := hc
      rw [if_pos ((strictUnder_iff p d).mpr ⟨by rw [hdk]; exact hc1, by rw [hdk]; exact hc2⟩)]
      have hnotin : ¬ (k < p.length ∧ p.take k ∈ L) := by
        rintro ⟨-, hmem⟩
        rw [hc1] at hmem
        exact (List.nodup_cons.mp hnd).1 hmem
      rw [if_neg hnotin, if_pos ⟨hc2, by rw [hc1]; exact List.mem_cons_self d L⟩]
      omega
    · have hhead : ¬ (pathStartsWith p d && p != d) = true := by
        intro hh
        obtain ⟨h1, h2⟩ := (strictUnder_iff p d).mp hh
        rw [hdk] at h1 h2
        exact hc ⟨h1, h2⟩
      rw [if_neg hhead, Nat.zero_add]
      by_cases h2 : k < p.length ∧ p.take k ∈ L
      · rw [if_pos h2, if_pos ⟨h2.1, List.mem_cons_of_mem _ h2.2⟩]
      · rw [if_neg h2, if_neg ?_]
        rintro ⟨hk', hmem⟩
        rcases List.mem_cons.mp hmem with he | hm
        · exact hc ⟨he, hk'⟩
        · exact h2 ⟨hk', hm⟩

theorem sizeUnder_cons (e : FsPath × Nat) (fs : SizeMap) (d : FsPath) :
    sizeUnder (e :: fs) d =
      (if (pathStartsWith e.1 d && e.1 != d) = true then e.2 else 0) +
        sizeUnder fs d := by
  rw [sizeUnder, sizeUnder, List.filter_cons]
  by_cases h : (pathStartsWith e.1 d && e.1 != d) = true
  · rw [if_pos h, if_pos h, List.map_cons, List.sum_cons]
  · rw [if_neg h, if_neg h, Nat.zero_add]

theorem sum_sizeUnder_eq (L : List FsPath) (hnd : L.Nodup) (k : Nat)
    (hk : ∀ d ∈ L, d.length = k) (fs : SizeMap) :
    (L.map (fun d => sizeUnder fs d)).sum =
      (fs.map (fun e => if k < e.1.length ∧ e.1.take k ∈ L then e.2 else 0)).sum := by
  induction fs with
  | nil =>
    have : L.map (fun d => sizeUnder ([] : SizeMap) d) = L.map (fun _ => 0) :=
      List.map_congr_left (fun d _ => rfl)
    simp [this]
  | cons e fs ih =>
    have hmap : L.map (fun d => sizeUnder (e :: fs) d) =
        L.map (fun d =>
          (if (pathStartsWith e.1 d && e.1 != d) = true then e.2 else 0) +
            sizeUnder fs d) :=
      List.map_congr_left (fun d _ => sizeUnder_cons e fs d)
    rw [hmap, sum_map_add, ih, sum_select L hnd k hk e.1 e.2, List.map_cons,
      List.sum_cons]

theorem contrib_bound (r : FsPath) (L : List FsPath) (e : FsPath × Nat)
    (hsw : pathStartsWith e.1 r = true) (hne : e.1 ≠ r) :
    ((if r.length + 1 < e.1.length ∧ e.1.take (r.length + 1) ∈ L then e.2 else 0) +
        (if (pathParent e.1 == some r) = true then e.2 else 0) ≤ e.2) ∧
      ((r.length + 1 < e.1.length → e.1.take (r.length + 1) ∈ L) →
        (if r.length + 1 < e.1.length ∧ e.1.take (r.length + 1) ∈ L then e.2 else 0) +
          (if (pathParent e.1 == some r) = true then e.2 else 0) = e.2) := by
  have hge := length_ge_of_startsWith e.1 r hsw hne
  have hemp : e.1.isEmpty = false := by
    cases he : e.1 with
    | nil => rw [he] at hge; simp at hge
    | cons a l => rfl
  rcases Nat.eq_or_lt_of_le hge with heq | hlt
  · have hpar : (pathParent e.1 == some r) = true := by
      rw [pathParent, hemp]
      simp only [Bool.false_eq_true, if_false]
      simp only [beq_iff_eq, Option.some.injEq]
      exact dropLast_eq_of_startsWith e.1 r hsw heq.symm
    have hdeep : ¬ (r.length + 1 < e.1.length ∧ e.1.take (r.length + 1) ∈ L) := by
      rintro ⟨h, -⟩
      omega
    rw [if_neg hdeep, if_pos hpar, Nat.zero_add]
    exact ⟨Nat.le_refl _, fun _ => rfl⟩
  · have hpar : ¬ (pathParent e.1 == some r) = true := by
      rw [pathParent, hemp]
      simp only [Bool.false_eq_true, if_false]
      simp only [beq_iff_eq, Option.some.injEq]
      intro hdl
      have := congrArg List.length hdl
      rw [List.length_dropLast] at this
      omega
    rw [if_neg hpar, Nat.add_zero]
    constructor
    · by_cases hd : r.length + 1 < e.1.length ∧ e.1.take (r.length + 1) ∈ L
      · rw [if_pos hd]
      · rw [if_neg hd]; exact Nat.zero_le _
    · intro hcov
      rw [if_pos ⟨hlt, hcov hlt⟩]

theorem root_partition (r : FsPath) (L : List FsPath) (hnd : L.Nodup)
    (hkL : ∀ d ∈ L, d.length = r.length + 1) (fs : SizeMap)
    (hnest : ∀ e ∈ fs, pathStartsWith e.1 r = true ∧ e.1 ≠ r) :
    ((L.map (fun d => sizeUnder fs d)).sum +
        ((fs.filter (fun e => pathParent e.1 == some r)).map Prod.snd).sum ≤
      (fs.map Prod.snd).sum) ∧
    ((∀ e ∈ fs, r.length + 1 < e.1.length → e.1.take (r.length + 1) ∈ L) →
      (L.map (fun d => sizeUnder fs d)).sum +
        ((fs.filter (fun e => pathParent e.1 == some r)).map Prod.snd).sum =
        (fs.map Prod.snd).sum) := by
  rw [sum_sizeUnder_eq L hnd (r.length + 1) hkL fs, sum_filter_map_eq,
    ← sum_map_add]
  constructor
  · refine List.sum_le_sum (fun e he => ?_)
    exact (contrib_bound r L e (hnest e he).1 (hnest e he).2).1
  · intro hcov
    refine congrArg List.sum (List.map_congr_left (fun e he => ?_))
    exact (contrib_bound r L e (hnest e he).1 (hnest e he).2).2 (hcov e he)

theorem mem_immediateSubdirsOf {dirSizes : SizeMap} {rootPath d : FsPath}
    (hd : d ∈ immediateSubdirsOf dirSizes rootPath) :
    d ∈ dirSizes.map Prod.fst ∧ d.length = rootPath.length + 1 ∧
      pathStartsWith d rootPath = true := by
  rw [immediateSubdirsOf, List.mem_insertionSort] at hd
  obtain ⟨hmem, hpred⟩ := List.mem_filter.mp hd
  rw [List.mem_insertionSort] at hmem
  rw [Bool.and_eq_true] at hpred
  exact ⟨hmem, by simpa using hpred.1, hpred.2⟩

theorem take_mem_immediateSubdirsOf {dirSizes : SizeMap} {rootPath d : FsPath}
    (hmem : d ∈ dirSizes.map Prod.fst) (hlen : d.length = rootPath.length + 1)
    (hsw : pathStartsWith d rootPath = true) :
    d ∈ immediateSubdirsOf dirSizes rootPath := by
  rw [immediateSubdirsOf, List.mem_insertionSort, List.mem_filter,
    List.mem_insertionSort]
  exact ⟨hmem, by simp [hlen, hsw]⟩

theorem immediateSubdirsOf_nodup {dirSizes : SizeMap} (rootPath : FsPath)
    (hnodup : (dirSizes.map Prod.fst).Nodup) :
    (immediateSubdirsOf dirSizes rootPath).Nodup := by
  rw [immediateSubdirsOf]
  have h1 : (List.insertionSort lenAsc (dirSizes.map Prod.fst)).Nodup :=
    ((List.perm_insertionSort lenAsc _).nodup_iff).mpr hnodup
  exact ((List.perm_insertionSort pathLexLe _).nodup_iff).mpr (h1.filter _)

theorem mem_removedDirsOf {dirSizes : SizeMap} {rootPath d : FsPath}
    (hmem : d ∈ dirSizes.map Prod.fst) (hne : d ≠ rootPath) :
    d ∈ removedDirsOf dirSizes rootPath := by
  rw [removedDirsOf, List.mem_filter, List.mem_insertionSort]
  exact ⟨hmem, by simpa using hne⟩

theorem root_not_removed (dirSizes : SizeMap) (rootPath : FsPath) :
    rootPath ∉ removedDirsOf dirSizes rootPath := by
  intro h
  rw [removedDirsOf, List.mem_filter] at h
  simpa using h.2

theorem mapGetD_eq_sizeUnder (dirSizes files : SizeMap)
    (hdir : ∀ e ∈ dirSizes, e.2 = sizeUnder files e.1) (d : FsPath)
    (hd : d ∈ dirSizes.map Prod.fst) :
    mapGetD dirSizes d = sizeUnder files d := by
  rw [mapGetD]
  cases hfind : dirSizes.find? (fun e => e.1 == d) with
  | none =>
    rw [List.find?_eq_none] at hfind
    obtain ⟨e, he, he1⟩ := List.mem_map.mp hd
    exact absurd (by simp [he1] : (e.1 == d) = true) (hfind e he)
  | some e =>
    have h1 : e.1 = d := by simpa using List.find?_some hfind
    have h2 : e ∈ dirSizes := List.mem_of_find?_eq_some hfind
    simp only [Option.map_some', Option.getD_some]
    rw [hdir e h2, h1]

theorem filterMap_if_size_sum (g : FsPath → Nat) (h : FsPath → FileNode)
    (hmk : ∀ d, (h d).size = g d) (L : List FsPath) :
    ((L.filterMap (fun d => if 0 < g d then some (h d) else none)).map
        FileNode.size).sum = (L.map g).sum := by
  induction L with
  | nil => rfl
  | cons d L ih =>
    rw [List.filterMap_cons, List.map_cons, List.sum_cons]
    by_cases hgd : 0 < g d
    · rw [if_pos hgd, List.map_cons, List.sum_cons, ih, hmk]
    · rw [if_neg hgd, ih]
      have h0 : g d = 0 := Nat.eq_zero_of_not_pos hgd
      omega

theorem filesWithParent_size_sum (files : SizeMap) (r : FsPath) :
    ((filesWithParent files r).map FileNode.size).sum =
      ((files.filter (fun e => pathParent e.1 == some r)).map Prod.snd).sum := by
  rw [filesWithParent, List.map_map]
  rfl

theorem rootChildrenRaw_sum (files dirSizes : SizeMap) (rootPath : FsPath)
    (hnest : ∀ e ∈ files, pathStartsWith e.1 rootPath = true ∧ e.1 ≠ rootPath)
    (hdir : ∀ e ∈ dirSizes, e.2 = sizeUnder files e.1)
    (hnodup : (dirSizes.map Prod.fst).Nodup) :
    (((rootChildrenRaw files dirSizes rootPath).map FileNode.size).sum ≤
      (files.map Prod.snd).sum) ∧
    ((∀ e ∈ files, rootPath.length + 1 < e.1.length →
        e.1.take (rootPath.length + 1) ∈ dirSizes.map Prod.fst) →
      ((rootChildrenRaw files dirSizes rootPath).map FileNode.size).sum =
        (files.map Prod.snd).sum) := by
  have hLnd := immediateSubdirsOf_nodup rootPath hnodup
  have hkL : ∀ d ∈ immediateSubdirsOf dirSizes rootPath,
      d.length = rootPath.length + 1 :=
    fun d hd => (mem_immediateSubdirsOf hd).2.1
  have hsum : ((rootChildrenRaw files dirSizes rootPath).map FileNode.size).sum =
      ((immediateSubdirsOf dirSizes rootPath).map
        (fun d => sizeUnder files d)).sum +
        ((files.filter (fun e => pathParent e.1 == some rootPath)).map
          Prod.snd).sum := by
    rw [rootChildrenRaw, List.map_append, List.sum_append,
      if_neg (root_not_removed dirSizes rootPath), filesWithParent_size_sum]
    congr 1
    have hfm : ((immediateSubdirsOf dirSizes rootPath).filterMap (fun d =>
        if 0 < mapGetD dirSizes d then
          some (subdirNodeOf files dirSizes rootPath d) else none)) =
        ((immediateSubdirsOf dirSizes rootPath).filterMap (fun d =>
          let sz := mapGetD dirSizes d
          if 0 < sz then some (subdirNodeOf files dirSizes rootPath d) else none)) :=
      rfl
    rw [← hfm, filterMap_if_size_sum (fun d => mapGetD dirSizes d)
      (subdirNodeOf files dirSizes rootPath) (fun _ => rfl)]
    exact congrArg List.sum (List.map_congr_left (fun d hd =>
      mapGetD_eq_sizeUnder dirSizes files hdir d (mem_immediateSubdirsOf hd).1))
  obtain ⟨hle, heq⟩ := root_partition rootPath
    (immediateSubdirsOf dirSizes rootPath) hLnd hkL files hnest
  constructor
  · rw [hsum]; exact hle
  · intro hcov
    rw [hsum]
    refine heq (fun e he hdeep => ?_)
    have hswe := (hnest e he).1
    have hlen : (e.1.take (rootPath.length + 1)).length = rootPath.length + 1 := by
      rw [List.length_take]
      omega
    have hsw2 : pathStartsWith (e.1.take (rootPath.length + 1)) rootPath = true := by
      rw [startsWith_iff, List.take_take, Nat.min_eq_left (by omega)]
      exact (startsWith_iff e.1 rootPath).mp hswe
    exact take_mem_immediateSubdirsOf (hcov e he hdeep) hlen hsw2

theorem rootChildrenRaw_children_none (files dirSizes : SizeMap)
    (rootPath : FsPath) :
    ∀ c ∈ rootChildrenRaw files dirSizes rootPath, c.children = none := by
  intro c hc
  rw [rootChildrenRaw] at hc
  rcases List.mem_append.mp hc with h | h
  · obtain ⟨d, hd, hsome⟩ := List.mem_filterMap.mp h
    by_cases hgd : 0 < mapGetD dirSizes d
    · rw [show (let sz := mapGetD dirSizes d;
          if 0 < sz then some (subdirNodeOf files dirSizes rootPath d) else none) =
          some (subdirNodeOf files dirSizes rootPath d) from if_pos hgd,
        Option.some.injEq] at hsome
      obtain ⟨hmem, hlen, -⟩ := mem_immediateSubdirsOf hd
      have hdne : d ≠ rootPath := by
        intro hdr
        rw [hdr] at hlen
        omega
      rw [← hsome, subdirNodeOf, if_pos (mem_removedDirsOf hmem hdne)]
      rfl
    · rw [show (let sz := mapGetD dirSizes d;
          if 0 < sz then some (subdirNodeOf files dirSizes rootPath d) else none) =
          none from if_neg hgd] at hsome
      cases hsome
  · by_cases hroot : rootPath ∈ removedDirsOf dirSizes rootPath
    · rw [if_pos hroot] at h
      cases h
    · rw [if_neg hroot] at h
      obtain ⟨e, -, he⟩ := List.mem_map.mp h
      rw [← he]
      rfl

theorem allNodesFuel_of_children_none {c : FileNode} (h : c.children = none)
    (n : Nat) : allNodesFuel n c = [c] := by
  cases n with
  | zero => rfl
  | succ n =>
    rw [allNodesFuel, childrenList, h]
    rfl

theorem mem_allNodesFuel {t d : FileNode}
    (hc : ∀ c ∈ childrenList t, c.children = none) {n : Nat}
    (hmem : d ∈ allNodesFuel n t) : d = t ∨ d ∈ childrenList t := by
  cases n with
  | zero =>
    left
    simpa [allNodesFuel] using hmem
  | succ n =>
    rw [allNodesFuel] at hmem
    rcases List.mem_cons.mp hmem with rfl | hmem'
    · left; rfl
    · obtain ⟨c, hcm, hdm⟩ := List.mem_flatMap.mp hmem'
      rw [allNodesFuel_of_children_none (hc c hcm)] at hdm
      right
      rw [List.mem_singleton.mp hdm]
      exact hcm

theorem children_build_subset (homePath : FsPath) (files dirSizes : SizeMap)
    (rootPath : FsPath) :
    ∀ c ∈ childrenList (build_tree_from_files homePath files dirSizes rootPath),
      c ∈ rootChildrenRaw files dirSizes rootPath := by
  intro c hc
  simp only [build_tree_from_files, childrenList] at hc
  by_cases hemp : (if 100 <
      (List.insertionSort nodeSizeDesc (rootChildrenRaw files dirSizes rootPath)).length
    then (List.insertionSort nodeSizeDesc (rootChildrenRaw files dirSizes rootPath)).take 100
    else List.insertionSort nodeSizeDesc (rootChildrenRaw files dirSizes rootPath)).isEmpty
  · rw [if_pos hemp] at hc
    cases hc
  · rw [if_neg hemp] at hc
    simp only [Option.getD_some] at hc
    have hmemSorted : c ∈ List.insertionSort nodeSizeDesc
        (rootChildrenRaw files dirSizes rootPath) := by
      by_cases h100 : 100 <
          (List.insertionSort nodeSizeDesc (rootChildrenRaw files dirSizes rootPath)).length
      · rw [if_pos h100] at hc
        exact List.mem_of_mem_take hc
      · rw [if_neg h100] at hc
        exact hc
    exact (List.mem_insertionSort nodeSizeDesc).mp hmemSorted

theorem childSum_build_le (homePath : FsPath) (files dirSizes : SizeMap)
    (rootPath : FsPath) :
    childSum (build_tree_from_files homePath files dirSizes rootPath) ≤
      ((rootChildrenRaw files dirSizes rootPath).map FileNode.size).sum := by
  have hperm : ((List.insertionSort nodeSizeDesc
        (rootChildrenRaw files dirSizes rootPath)).map FileNode.size).sum =
      ((rootChildrenRaw files dirSizes rootPath).map FileNode.size).sum :=
    ((List.perm_insertionSort nodeSizeDesc _).map FileNode.size).sum_eq
  simp only [build_tree_from_files, childSum, childrenList]
  by_cases hemp : (if 100 <
      (List.insertionSort nodeSizeDesc (rootChildrenRaw files dirSizes rootPath)).length
    then (List.insertionSort nodeSizeDesc (rootChildrenRaw files dirSizes rootPath)).take 100
    else List.insertionSort nodeSizeDesc (rootChildrenRaw files dirSizes rootPath)).isEmpty
  · rw [if_pos hemp]
    exact Nat.zero_le _
  · rw [if_neg hemp]
    simp only [Option.getD_some]
    by_cases h100 : 100 <
        (List.insertionSort nodeSizeDesc (rootChildrenRaw files dirSizes rootPath)).length
    · rw [if_pos h100, ← hperm, List.map_take]
      exact sum_take_le _ _
    · rw [if_neg h100, hperm]

theorem childSum_build_eq (homePath : FsPath) (files dirSizes : SizeMap)
    (rootPath : FsPath)
    (htrunc : (rootChildrenRaw files dirSizes rootPath).length ≤ 100) :
    childSum (build_tree_from_files homePath files dirSizes rootPath) =
      ((rootChildrenRaw files dirSizes rootPath).map FileNode.size).sum := by
  have hperm : ((List.insertionSort nodeSizeDesc
        (rootChildrenRaw files dirSizes rootPath)).map FileNode.size).sum =
      ((rootChildrenRaw files dirSizes rootPath).map FileNode.size).sum :=
    ((List.perm_insertionSort nodeSizeDesc _).map FileNode.size).sum_eq
  have h100 : ¬ 100 < (List.insertionSort nodeSizeDesc
      (rootChildrenRaw files dirSizes rootPath)).length := by
    rw [List.length_insertionSort]
    omega
  simp only [build_tree_from_files, childSum, childrenList, if_neg h100]
  by_cases hemp : (List.insertionSort nodeSizeDesc
      (rootChildrenRaw files dirSizes rootPath)).isEmpty
  · rw [if_pos hemp]
    have hnil : List.insertionSort nodeSizeDesc
        (rootChildrenRaw files dirSizes rootPath) = [] := List.isEmpty_iff.mp hemp
    rw [← hperm, hnil]
    rfl
  · rw [if_neg hemp]
    simp only [Option.getD_some]
    exact hperm

/-- C2: for a file map strictly nested under the root, a directory map whose
every entry carries the sum of the file sizes strictly below its key (with
distinct keys covering every immediate subdirectory that holds a deeper file),
and a total that fits in `u64`: every node of the built tree has
`childSum ≤ size` and `0 ≤ size`; the root's size equals the sum of all file
sizes; and absent truncation to 100 children the root's children sum to
exactly its size. -/
theorem build_tree_from_files_sound (homePath : FsPath)
    (files dirSizes : SizeMap) (rootPath : FsPath) (n : Nat) (d : FileNode)
    (hnest : ∀ e ∈ files, pathStartsWith e.1 rootPath = true ∧ e.1 ≠ rootPath)
    (hdir : ∀ e ∈ dirSizes, e.2 = sizeUnder files e.1)
    (hnodup : (dirSizes.map Prod.fst).Nodup)
    (hcover : ∀ e ∈ files, rootPath.length + 1 < e.1.length →
      e.1.take (rootPath.length + 1) ∈ dirSizes.map Prod.fst)
    (hfit : (files.map Prod.snd).sum < U64LIM)
    (hmem : d ∈ allNodesFuel n
      (build_tree_from_files homePath files dirSizes rootPath)) :
    ((childSum d ≤ d.size ∧ 0 ≤ d.size) ∧
      (build_tree_from_files homePath files dirSizes rootPath).size =
        (files.map Prod.snd).sum) ∧
    ((rootChildrenRaw files dirSizes rootPath).length ≤ 100 →
      childSum (build_tree_from_files homePath files dirSizes rootPath) =
        (build_tree_from_files homePath files dirSizes rootPath).size) := by
  have hB : (build_tree_from_files homePath files dirSizes rootPath).size =
      (files.map Prod.snd).sum := by
    simp only [build_tree_from_files]
    exact u64sum_eq_sum _ hfit
  obtain ⟨hle, heq⟩ := rootChildrenRaw_sum files dirSizes rootPath hnest hdir hnodup
  have hrootle : childSum (build_tree_from_files homePath files dirSizes rootPath) ≤
      (build_tree_from_files homePath files dirSizes rootPath).size := by
    rw [hB]
    exact Nat.le_trans (childSum_build_le homePath files dirSizes rootPath) hle
  have hC : (rootChildrenRaw files dirSizes rootPath).length ≤ 100 →
      childSum (build_tree_from_files homePath files dirSizes rootPath) =
        (build_tree_from_files homePath files dirSizes rootPath).size := by
    intro htrunc
    rw [childSum_build_eq homePath files dirSizes rootPath htrunc, heq hcover, hB]
  have hcn : ∀ c ∈ childrenList (build_tree_from_files homePath files dirSizes rootPath),
      c.children = none :=
    fun c hc => rootChildrenRaw_children_none files dirSizes rootPath c
      (children_build_subset homePath files dirSizes rootPath c hc)
  rcases mem_allNodesFuel hcn hmem with rfl | hchild
  · exact ⟨⟨⟨hrootle, Nat.zero_le _⟩, hB⟩, hC⟩
  · have hd0 : childSum d = 0 := by
      rw [childSum, childrenList,
        rootChildrenRaw_children_none files dirSizes rootPath d
          (children_build_subset homePath files dirSizes rootPath d hchild)]
      rfl
    exact ⟨⟨⟨by rw [hd0]; exact Nat.zero_le _, Nat.zero_le _⟩, hB⟩, hC⟩

theorem build_tree_from_files_sound_witness :
    ((childSum (build_tree_from_files ["h"] filesW dirsW ["r"]) ≤
        (build_tree_from_files ["h"] filesW dirsW ["r"]).size ∧
      0 ≤ (build_tree_from_files ["h"] filesW dirsW ["r"]).size) ∧
      (build_tree_from_files ["h"] filesW dirsW ["r"]).size =
        (filesW.map Prod.snd).sum) ∧
    childSum (build_tree_from_files ["h"] filesW dirsW ["r"]) =
      (build_tree_from_files ["h"] filesW dirsW ["r"]).size := by
  have h := build_tree_from_files_sound ["h"] filesW dirsW ["r"] 0
    (build_tree_from_files ["h"] filesW dirsW ["r"])
    (by decide) (by decide) (by decide) (by decide) (by decide)
    (List.mem_singleton.mpr rfl)
  exact ⟨h.1, h.2 (by decide)⟩

end Spacescout
